import Mathlib

/-!
Verification of the chess-viz data-processing pipeline.

Strings from the source are modelled as `List Char`; Python/polars floats are
modelled as `ℚ` (exact arithmetic; `round(x, n)` becomes
`(round (x * 10^n) : ℤ) / 10^n`, which agrees with float rounding away from
zero on the nonnegative values that occur here); optional values become
`Option`.  Each definition is a shallow embedding of the function of the same
name in `src/data_processing`.
-/

namespace ChessViz

/-- Character class of the whitespace characters recognised by the regexes
(`\s`) and by `str.isspace` / `strip` on the ASCII range used by PGN data. -/
def isSpaceCh (c : Char) : Bool :=
  c == ' ' || c == '\t' || c == '\n' || c == '\r' || c == '\x0b' || c == '\x0c'

/-- Character class `\d` (ASCII digits). -/
def isDigitCh (c : Char) : Bool :=
  decide (48 ≤ c.toNat ∧ c.toNat ≤ 57)

/-- Numeric value of a digit string, as Python `int` on a `\d+` match. -/
def digitsVal (ds : List Char) : ℕ :=
  ds.foldl (fun a c => 10 * a + (c.toNat - 48)) 0

/-- Python `round(q, n)` on the nonnegative rationals produced by the
builders: multiply by `10^n`, round to the nearest integer, divide back. -/
def roundTo (n : ℕ) (q : ℚ) : ℚ :=
  ((round (q * 10 ^ n) : ℤ) : ℚ) / 10 ^ n

/-- In-place update of a list element, as a Python `l[i] = f(l[i])`. -/
def listModify {α : Type} (f : α → α) : ℕ → List α → List α
  | _, [] => []
  | 0, a :: as => f a :: as
  | n + 1, a :: as => a :: listModify f n as

/-- Polars `str.strip_chars()`: trim whitespace on both ends. -/
def stripChars (s : List Char) : List Char :=
  ((s.dropWhile isSpaceCh).reverse.dropWhile isSpaceCh).reverse

lemma isDigitCh_not_space {c : Char} (h : isDigitCh c = true) : isSpaceCh c = false := by
  have h' : 48 ≤ c.toNat ∧ c.toNat ≤ 57 := of_decide_eq_true h
  simp only [isSpaceCh, Bool.or_eq_false_iff, beq_eq_false_iff_ne, ne_eq]
  refine ⟨⟨⟨⟨⟨?_, ?_⟩, ?_⟩, ?_⟩, ?_⟩, ?_⟩ <;>
    (intro he; subst he; exact absurd h' (by decide))

lemma takeWhile_all {α : Type} (p : α → Bool) :
    ∀ l : List α, (∀ c ∈ l, p c = true) → l.takeWhile p = l := by
  intro l
  induction l with
  | nil => intro _; rfl
  | cons a as ih =>
      intro h
      simp [List.takeWhile_cons, h a (by simp), ih (fun c hc => h c (by simp [hc]))]

lemma dropWhile_all {α : Type} (p : α → Bool) :
    ∀ l : List α, (∀ c ∈ l, p c = true) → l.dropWhile p = [] := by
  intro l
  induction l with
  | nil => intro _; rfl
  | cons a as ih =>
      intro h
      simp only [List.dropWhile_cons, h a (by simp)]
      exact ih (fun c hc => h c (by simp [hc]))

lemma dropWhile_none {α : Type} (p : α → Bool) :
    ∀ l : List α, (∀ c ∈ l, p c = false) → l.dropWhile p = l := by
  intro l
  induction l with
  | nil => intro _; rfl
  | cons a as _ =>
      intro h
      simp [List.dropWhile_cons, h a (by simp)]

lemma takeWhile_append_all {α : Type} (p : α → Bool) (l : List α) (x : α) (r : List α)
    (h : ∀ c ∈ l, p c = true) (hx : p x = false) :
    (l ++ x :: r).takeWhile p = l := by
  induction l with
  | nil => simp [List.takeWhile_cons, hx]
  | cons a as ih =>
      simp [List.cons_append, List.takeWhile_cons, h a (by simp),
        ih (fun c hc => h c (by simp [hc]))]

lemma dropWhile_append_all {α : Type} (p : α → Bool) (l : List α) (x : α) (r : List α)
    (h : ∀ c ∈ l, p c = true) (hx : p x = false) :
    (l ++ x :: r).dropWhile p = x :: r := by
  induction l with
  | nil => simp [List.dropWhile_cons, hx]
  | cons a as ih =>
      simp only [List.cons_append, List.dropWhile_cons, h a (by simp)]
      exact ih (fun c hc => h c (by simp [hc]))

/-! ### Time-control bucket (`game_helpers.normalize_time_control_bucket`) -/

/-- Matcher for the regex `^\s*(\d+)\s*(?:\+\s*(\d+)\s*)?$` followed by
Python `int` on the two capture groups (the second defaulting to `0`).
Returns `none` exactly when the regex does not match. -/
def tcMatch (s : List Char) : Option (ℕ × ℕ) :=
  if (s.dropWhile isSpaceCh).takeWhile isDigitCh = [] then none
  else
    match ((s.dropWhile isSpaceCh).dropWhile isDigitCh).dropWhile isSpaceCh with
    | [] => some (digitsVal ((s.dropWhile isSpaceCh).takeWhile isDigitCh), 0)
    | '+' :: r3 =>
        if (r3.dropWhile isSpaceCh).takeWhile isDigitCh = [] then none
        else if ((r3.dropWhile isSpaceCh).dropWhile isDigitCh).dropWhile isSpaceCh = [] then
          some (digitsVal ((s.dropWhile isSpaceCh).takeWhile isDigitCh),
                digitsVal ((r3.dropWhile isSpaceCh).takeWhile isDigitCh))
        else none
    | _ => none

/-- Embedding of `normalize_time_control_bucket` from
`src/data_processing/parser/game_helpers.py`. -/
def normalize_time_control_bucket (s : List Char) : String :=
  match tcMatch s with
  | none => "OTHER"
  | some (initial, inc) =>
      let estimated := initial + 40 * inc
      if estimated < 180 then "BULLET"
      else if estimated < 480 then "BLITZ"
      else if estimated < 1500 then "RAPID"
      else "OTHER"

lemma tcMatch_digits (ds : List Char) (h1 : ds ≠ [])
    (hd : ∀ c ∈ ds, isDigitCh c = true) :
    tcMatch ds = some (digitsVal ds, 0) := by
  have hns : ∀ c ∈ ds, isSpaceCh c = false := fun c hc => isDigitCh_not_space (hd c hc)
  unfold tcMatch
  rw [dropWhile_none isSpaceCh ds hns, takeWhile_all isDigitCh ds hd,
    dropWhile_all isDigitCh ds hd]
  simp only [List.dropWhile_nil, if_neg h1]

lemma tcMatch_digits_plus (ds1 ds2 : List Char) (h1 : ds1 ≠ []) (h2 : ds2 ≠ [])
    (hd1 : ∀ c ∈ ds1, isDigitCh c = true) (hd2 : ∀ c ∈ ds2, isDigitCh c = true) :
    tcMatch (ds1 ++ '+' :: ds2) = some (digitsVal ds1, digitsVal ds2) := by
  have hns1 : ∀ c ∈ ds1, isSpaceCh c = false := fun c hc => isDigitCh_not_space (hd1 c hc)
  have hns2 : ∀ c ∈ ds2, isSpaceCh c = false := fun c hc => isDigitCh_not_space (hd2 c hc)
  have hall : ∀ c ∈ ds1 ++ '+' :: ds2, isSpaceCh c = false := by
    intro c hc
    rcases List.mem_append.mp hc with h | h
    · exact hns1 c h
    · rcases List.mem_cons.mp h with h | h
      · subst h; decide
      · exact hns2 c h
  unfold tcMatch
  rw [dropWhile_none isSpaceCh _ hall,
    takeWhile_append_all isDigitCh ds1 '+' ds2 hd1 (by decide),
    dropWhile_append_all isDigitCh ds1 '+' ds2 hd1 (by decide)]
  rw [show ('+' :: ds2).dropWhile isSpaceCh = '+' :: ds2 from
    dropWhile_none isSpaceCh _ (by
      intro c hc
      rcases List.mem_cons.mp hc with h | h
      · subst h; decide
      · exact hns2 c h)]
  rw [if_neg h1]
  show (if (ds2.dropWhile isSpaceCh).takeWhile isDigitCh = [] then none
        else if ((ds2.dropWhile isSpaceCh).dropWhile isDigitCh).dropWhile isSpaceCh = [] then
          some (digitsVal ds1, digitsVal ((ds2.dropWhile isSpaceCh).takeWhile isDigitCh))
        else none) = some (digitsVal ds1, digitsVal ds2)
  rw [dropWhile_none isSpaceCh ds2 hns2, takeWhile_all isDigitCh ds2 hd2,
    dropWhile_all isDigitCh ds2 hd2]
  simp [h2]

/-- Claim C6: for time-control strings of the form `initial` or `initial+inc`,
the bucket is derived from `estimated = initial + 40·inc` seconds as BULLET
below 180, BLITZ below 480, RAPID below 1500 and OTHER otherwise or when the
string does not match the time-control pattern; in particular `180+0` is
BLITZ, `179+0` and `60+0` are BULLET, and `900+10` is RAPID. -/
theorem c6_time_control_bucket (s ds1 ds2 : List Char)
    (h1 : ds1 ≠ []) (hd1 : ∀ c ∈ ds1, isDigitCh c = true)
    (h2 : ds2 ≠ []) (hd2 : ∀ c ∈ ds2, isDigitCh c = true) :
    (normalize_time_control_bucket ds1 =
      (if digitsVal ds1 < 180 then "BULLET" else if digitsVal ds1 < 480 then "BLITZ"
       else if digitsVal ds1 < 1500 then "RAPID" else "OTHER")) ∧
    (normalize_time_control_bucket (ds1 ++ '+' :: ds2) =
      (if digitsVal ds1 + 40 * digitsVal ds2 < 180 then "BULLET"
       else if digitsVal ds1 + 40 * digitsVal ds2 < 480 then "BLITZ"
       else if digitsVal ds1 + 40 * digitsVal ds2 < 1500 then "RAPID" else "OTHER")) ∧
    (tcMatch s = none → normalize_time_control_bucket s = "OTHER") ∧
    normalize_time_control_bucket "180+0".toList = "BLITZ" ∧
    normalize_time_control_bucket "179+0".toList = "BULLET" ∧
    normalize_time_control_bucket "60+0".toList = "BULLET" ∧
    normalize_time_control_bucket "900+10".toList = "RAPID" := by
  refine ⟨?_, ?_, ?_, by decide, by decide, by decide, by decide⟩
  · unfold normalize_time_control_bucket
    rw [tcMatch_digits ds1 h1 hd1]
    simp
  · unfold normalize_time_control_bucket
    rw [tcMatch_digits_plus ds1 ds2 h1 h2 hd1 hd2]
  · intro h
    unfold normalize_time_control_bucket
    rw [h]

/-- Witness for C6 at `s = "x"`, `ds1 = "300"`, `ds2 = "3"`. -/
theorem c6_time_control_bucket_witness :
    (normalize_time_control_bucket "300".toList =
      (if digitsVal "300".toList < 180 then "BULLET"
       else if digitsVal "300".toList < 480 then "BLITZ"
       else if digitsVal "300".toList < 1500 then "RAPID" else "OTHER")) ∧
    (normalize_time_control_bucket ("300".toList ++ '+' :: "3".toList) =
      (if digitsVal "300".toList + 40 * digitsVal "3".toList < 180 then "BULLET"
       else if digitsVal "300".toList + 40 * digitsVal "3".toList < 480 then "BLITZ"
       else if digitsVal "300".toList + 40 * digitsVal "3".toList < 1500 then "RAPID"
       else "OTHER")) ∧
    (tcMatch "x".toList = none → normalize_time_control_bucket "x".toList = "OTHER") ∧
    normalize_time_control_bucket "180+0".toList = "BLITZ" ∧
    normalize_time_control_bucket "179+0".toList = "BULLET" ∧
    normalize_time_control_bucket "60+0".toList = "BULLET" ∧
    normalize_time_control_bucket "900+10".toList = "RAPID" :=
  c6_time_control_bucket "x".toList "300".toList "3".toList (by decide) (by decide)
    (by decide) (by decide)

/-! ### Heatmap bin index (`opening_accuracy_heatmap_builder._bin_index_10`) -/

/-- Embedding of `_clamp` from
`src/data_processing/builder/builders/opening_accuracy_heatmap_builder.py`. -/
def clamp (x lo hi : ℚ) : ℚ :=
  if x < lo then lo else if x > hi then hi else x

/-- Embedding of `_bin_index_10`: clamp to `[0, 100]`, floor-divide by 10
(Python `int(x // 10.0)`, which is the floor for nonnegative `x`), and map
index 10 down to 9. -/
def bin_index_10 (x : ℚ) : ℤ :=
  let y := clamp x 0 100
  let idx := ⌊y / 10⌋
  if 10 ≤ idx then 9 else idx

/-- Claim C9: on `[0, 100]` the bin function equals
`clamp(floor(v/10), 0, 9)`, it is monotone non-decreasing, and it returns 9
at `v = 100`. -/
theorem c9_bin_index (v w : ℚ) (h0 : 0 ≤ v) (h1 : v ≤ 100) (hvw : v ≤ w) (hw : w ≤ 100) :
    bin_index_10 v = max 0 (min 9 ⌊v / 10⌋) ∧
    bin_index_10 v ≤ bin_index_10 w ∧
    bin_index_10 (100 : ℚ) = 9 := by
  have hclamp : ∀ u : ℚ, 0 ≤ u → u ≤ 100 → clamp u 0 100 = u := by
    intro u hu0 hu1
    unfold clamp
    rw [if_neg (by linarith), if_neg (by linarith)]
  have hfl : ∀ u : ℚ, 0 ≤ u → u ≤ 100 → (0 ≤ ⌊u / 10⌋ ∧ ⌊u / 10⌋ ≤ 10) := by
    intro u hu0 hu1
    constructor
    · exact Int.floor_nonneg.mpr (by positivity)
    · have : u / 10 ≤ 10 := by linarith
      calc ⌊u / 10⌋ ≤ ⌊(10 : ℚ)⌋ := Int.floor_le_floor this
        _ = 10 := by norm_num
  have hval : ∀ u : ℚ, 0 ≤ u → u ≤ 100 → bin_index_10 u = max 0 (min 9 ⌊u / 10⌋) := by
    intro u hu0 hu1
    obtain ⟨hl, hr⟩ := hfl u hu0 hu1
    unfold bin_index_10
    rw [hclamp u hu0 hu1]
    by_cases h : 10 ≤ ⌊u / 10⌋
    · rw [if_pos h]; omega
    · rw [if_neg h]; omega
  have hw0 : (0 : ℚ) ≤ w := le_trans h0 hvw
  refine ⟨hval v h0 h1, ?_, ?_⟩
  · rw [hval v h0 h1, hval w hw0 hw]
    have : ⌊v / 10⌋ ≤ ⌊w / 10⌋ :=
      Int.floor_le_floor (by linarith)
    omega
  · rw [hval 100 (by norm_num) le_rfl]
    norm_num

/-- Witness for C9 at `v = 15`, `w = 97`. -/
theorem c9_bin_index_witness :
    bin_index_10 15 = max 0 (min 9 ⌊(15 : ℚ) / 10⌋) ∧
    bin_index_10 15 ≤ bin_index_10 97 ∧
    bin_index_10 (100 : ℚ) = 9 :=
  c9_bin_index 15 97 (by norm_num) (by norm_num) (by norm_num) (by norm_num)

/-! ### Opening / after-opening reconstruction
(`opening_accuracy_heatmap_builder._compute_opening_and_after_accuracy`) -/

/-- Python list indexing restricted to the in-range accesses performed by the
source (negative index counts from the end). -/
def pyIndex (l : List ℚ) (i : ℤ) : ℚ :=
  if i < 0 then l.getD (l.length - (-i).toNat) 0 else l.getD i.toNat 0

/-- Embedding of `_compute_opening_and_after_accuracy`.  The Python guard
`not acc_per_move or len(acc_per_move) <= opening_moves` collapses to the
single length test for a natural `opening_moves`; the second guard
`n_after <= 0` is kept even though it is unreachable. -/
def compute_opening_and_after_accuracy (acc : List ℚ) (opening_moves : ℕ) :
    Option (ℚ × ℚ) :=
  if acc.length ≤ opening_moves then none
  else
    let opening_avg := pyIndex acc ((opening_moves : ℤ) - 1)
    let final_avg := pyIndex acc (-1)
    let total_sum := final_avg * acc.length
    let opening_sum := opening_avg * opening_moves
    if acc.length - opening_moves = 0 then none
    else some (opening_avg,
      (total_sum - opening_sum) / ((acc.length - opening_moves : ℕ) : ℚ))

/-- Claim C5: a pair is returned exactly when `N > K`; in that case
`opening_avg = a[K-1]` and `after_avg = (a[N-1]·N − a[K-1]·K)/(N−K)`;
a trajectory of exactly `K` entries yields no sample, and
`[90, 80, 70, 60]` with `K = 2` yields `(80, 40)`. -/
theorem c5_after_opening (a : List ℚ) (K : ℕ) (hK : 1 ≤ K) :
    ((compute_opening_and_after_accuracy a K).isSome ↔ K < a.length) ∧
    (K < a.length →
      compute_opening_and_after_accuracy a K =
        some (a.getD (K - 1) 0,
          (a.getD (a.length - 1) 0 * a.length - a.getD (K - 1) 0 * K) /
            ((a.length : ℚ) - K))) ∧
    compute_opening_and_after_accuracy [90, 80, 70, 60] 2 = some (80, 40) := by
  have hval : K < a.length →
      compute_opening_and_after_accuracy a K =
        some (a.getD (K - 1) 0,
          (a.getD (a.length - 1) 0 * a.length - a.getD (K - 1) 0 * K) /
            ((a.length : ℚ) - K)) := by
    intro hlt
    unfold compute_opening_and_after_accuracy
    rw [if_neg (by omega), if_neg (by omega)]
    have h1 : pyIndex a ((K : ℤ) - 1) = a.getD (K - 1) 0 := by
      unfold pyIndex
      rw [if_neg (by omega)]
      congr 1
      omega
    have h2 : pyIndex a (-1) = a.getD (a.length - 1) 0 := by
      unfold pyIndex
      rw [if_pos (by omega)]
      congr 2
    have h3 : ((a.length - K : ℕ) : ℚ) = (a.length : ℚ) - K := by
      push_cast [Nat.cast_sub (le_of_lt hlt)]
      ring
    rw [h1, h2, h3]
  refine ⟨?_, hval, ?_⟩
  · constructor
    · intro hs
      by_contra hle
      unfold compute_opening_and_after_accuracy at hs
      rw [if_pos (by omega)] at hs
      exact Bool.noConfusion hs
    · intro hlt
      rw [hval hlt]
      rfl
  · norm_num [compute_opening_and_after_accuracy, pyIndex]

/-- Witness for C5 at `a = [90, 80, 70, 60]`, `K = 2`. -/
theorem c5_after_opening_witness :
    ((compute_opening_and_after_accuracy [90, 80, 70, 60] 2).isSome ↔
      2 < ([90, 80, 70, 60] : List ℚ).length) ∧
    (2 < ([90, 80, 70, 60] : List ℚ).length →
      compute_opening_and_after_accuracy [90, 80, 70, 60] 2 =
        some (([90, 80, 70, 60] : List ℚ).getD (2 - 1) 0,
          (([90, 80, 70, 60] : List ℚ).getD (([90, 80, 70, 60] : List ℚ).length - 1) 0 *
              ([90, 80, 70, 60] : List ℚ).length -
            ([90, 80, 70, 60] : List ℚ).getD (2 - 1) 0 * 2) /
            ((([90, 80, 70, 60] : List ℚ).length : ℚ) - 2))) ∧
    compute_opening_and_after_accuracy [90, 80, 70, 60] 2 = some (80, 40) :=
  c5_after_opening [90, 80, 70, 60] 2 (by norm_num)

/-! ### Rating brackets from a nullable Elo (popularity and explorer builders) -/

/-- Polars comparison of a nullable column with a literal: null propagates. -/
def optLtQ (a : Option ℚ) (b : ℚ) : Option Bool :=
  a.map (fun x => decide (x < b))

/-- Polars `when/then/otherwise` chain: a branch is taken only when its
condition is `true`; a `null` or `false` condition falls through (Kleene
semantics), so the final `otherwise` applies. -/
def whenChain : List (Option Bool × String) → String → String
  | [], dflt => dflt
  | (c, v) :: rest, dflt => if c = some true then v else whenChain rest dflt

/-- Embedding of the `rating_bracket` expression of `PopularityBuilder.build`
(`src/data_processing/builder/builders/popularity_builder.py`). -/
def rating_bracket_popularity (average_elo : Option ℚ) : String :=
  whenChain
    [(optLtQ average_elo 500, "0-500"), (optLtQ average_elo 1000, "500-1000"),
     (optLtQ average_elo 1500, "1000-1500"), (optLtQ average_elo 2000, "1500-2000")]
    "2000+"

/-- Embedding of the `rating_bracket` expression of
`OpeningExplorerBuilder.build`
(`src/data_processing/builder/builders/opening_explorer_builder.py`). -/
def rating_bracket_explorer (average_elo : Option ℚ) : String :=
  whenChain
    [(optLtQ average_elo 1000, "500-1000"), (optLtQ average_elo 1500, "1000-1500"),
     (optLtQ average_elo 2000, "1500-2000")]
    "2000+"

/-- Claim C10: a null `average_elo` fails every cut-point comparison in both
builders, so the `otherwise` branch assigns the top bracket `2000+`; the row
is bracketed (kept), not dropped. -/
theorem c10_null_elo_top_bracket :
    rating_bracket_popularity none = "2000+" ∧
    rating_bracket_explorer none = "2000+" := by
  decide

/-! ### Popularity builder win-rate triplet (`PopularityBuilder.build`) -/

/-- Single-pass group aggregation of `PopularityBuilder.build`:
`(count, w_wins, b_wins, draws)` over the `result_value` column of the rows
of one `(time_control, rating_bracket, opening_name, color)` group. -/
def popAgg (rs : List ℤ) : ℕ × ℕ × ℕ × ℕ :=
  rs.foldl (fun acc r =>
    (acc.1 + 1,
     acc.2.1 + (if r = 1 then 1 else 0),
     acc.2.2.1 + (if r = -1 then 1 else 0),
     acc.2.2.2 + (if r = 0 then 1 else 0))) (0, 0, 0, 0)

/-- Embedding of the `win_rate_triplet` column: the concatenation
`[r_white, r_draw, r_black]` with `r_white = round(w_wins/count, 4)`,
`r_draw = round(draws/count, 4)`, `r_black = round(b_wins/count, 4)`. -/
def popularity_win_rate (rs : List ℤ) : List ℚ :=
  [roundTo 4 (((popAgg rs).2.1 : ℚ) / ((popAgg rs).1 : ℚ)),
   roundTo 4 (((popAgg rs).2.2.2 : ℚ) / ((popAgg rs).1 : ℚ)),
   roundTo 4 (((popAgg rs).2.2.1 : ℚ) / ((popAgg rs).1 : ℚ))]

/-- Claim C1 counterexample: for a group holding a single White win
(`result_value = 1`, so `count = 1`, `w_wins = 1`, `draws = b_wins = 0`),
the builder emits `[1, 0, 0]`, not the claimed
`[wr_white, wr_white, wr_black] = [1, 1, 0]` with
`wr_white = round((w_wins + 0.5·draws)/count, 4)`. -/
theorem c1_win_rate_counterexample :
    popularity_win_rate [1] = [1, 0, 0] ∧
    popularity_win_rate [1] ≠
      [roundTo 4 ((1 + (1 / 2) * 0) / 1), roundTo 4 ((1 + (1 / 2) * 0) / 1),
       roundTo 4 ((0 + (1 / 2) * 0) / 1)] := by
  constructor <;> norm_num [popularity_win_rate, popAgg, roundTo, round_eq]

lemma popAgg_spec (rs : List ℤ) :
    popAgg rs = (rs.length, rs.countP (fun r => r == 1),
      rs.countP (fun r => r == -1), rs.countP (fun r => r == 0)) := by
  suffices h : ∀ (rs : List ℤ) (a b c d : ℕ),
      rs.foldl (fun acc r =>
        (acc.1 + 1,
         acc.2.1 + (if r = 1 then 1 else 0),
         acc.2.2.1 + (if r = -1 then 1 else 0),
         acc.2.2.2 + (if r = 0 then 1 else 0))) (a, b, c, d) =
      (a + rs.length, b + rs.countP (fun r => r == 1),
       c + rs.countP (fun r => r == -1), d + rs.countP (fun r => r == 0)) by
    simpa using h rs 0 0 0 0
  intro rs
  induction rs with
  | nil => intro a b c d; simp
  | cons r rest ih =>
      intro a b c d
      simp only [List.foldl_cons]
      rw [ih]
      simp only [List.countP_cons, List.length_cons, Prod.mk.injEq, beq_iff_eq]
      refine ⟨by omega, ?_, ?_, ?_⟩ <;> split_ifs <;> omega

/-- Claim C1 amended: for every nonempty group, the emitted `win_rate`
triplet is `[round(w_wins/count, 4), round(draws/count, 4),
round(b_wins/count, 4)]` — the raw white-win, draw and black-win fractions,
with no `0.5·draws` adjustment and no duplication of the White rate. -/
theorem c1_win_rate_amended (rs : List ℤ) (h : rs ≠ []) :
    popularity_win_rate rs =
      [roundTo 4 ((rs.countP (fun r => r == 1) : ℚ) / (rs.length : ℚ)),
       roundTo 4 ((rs.countP (fun r => r == 0) : ℚ) / (rs.length : ℚ)),
       roundTo 4 ((rs.countP (fun r => r == -1) : ℚ) / (rs.length : ℚ))] := by
  unfold popularity_win_rate
  rw [popAgg_spec rs]

/-- Witness for the amended C1 at the group `[1, 0, -1, 1]`. -/
theorem c1_win_rate_amended_witness :
    popularity_win_rate [1, 0, -1, 1] =
      [roundTo 4 ((([1, 0, -1, 1] : List ℤ).countP (fun r => r == 1) : ℚ) /
          (([1, 0, -1, 1] : List ℤ).length : ℚ)),
       roundTo 4 ((([1, 0, -1, 1] : List ℤ).countP (fun r => r == 0) : ℚ) /
          (([1, 0, -1, 1] : List ℤ).length : ℚ)),
       roundTo 4 ((([1, 0, -1, 1] : List ℤ).countP (fun r => r == -1) : ℚ) /
          (([1, 0, -1, 1] : List ℤ).length : ℚ))] :=
  c1_win_rate_amended [1, 0, -1, 1] (by decide)

/-! ### Accuracy-heatmap cell aggregation (`OpeningAccuracyHeatmapBuilder.build`)

The builder's output is JSON; to state claims about its shape faithfully the
emitted values are modelled by the inductive `JVal` (a number or an array). -/

/-- JSON values occurring in the heatmap output: numbers and arrays. -/
inductive JVal where
  | jnum : ℚ → JVal
  | jarr : List JVal → JVal

/-- Embedding of the `_AggCell` dataclass: a 10×10 count matrix, a 10×10
win-sum matrix and a total sample count. -/
structure AggCell where
  counts : List (List ℕ)
  win_sums : List (List ℚ)
  total : ℕ

/-- Embedding of `_new_matrix_int`. -/
def new_matrix_int : List (List ℕ) :=
  List.replicate 10 (List.replicate 10 0)

/-- Embedding of `_new_matrix_float`. -/
def new_matrix_float : List (List ℚ) :=
  List.replicate 10 (List.replicate 10 0)

/-- Embedding of `add_sample` (inner function of
`OpeningAccuracyHeatmapBuilder.build`): bin the two accuracies, increment
`counts[y][x]`, add the win score to `win_sums[y][x]`, bump `total`. -/
def add_sample (cell : AggCell) (opening_acc after_acc win_score : ℚ) : AggCell :=
  { counts := listModify (listModify (fun n => n + 1) (bin_index_10 opening_acc).toNat)
      (bin_index_10 after_acc).toNat cell.counts,
    win_sums := listModify (listModify (fun q => q + win_score) (bin_index_10 opening_acc).toNat)
      (bin_index_10 after_acc).toNat cell.win_sums,
    total := cell.total + 1 }

/-- All samples of one `(time_control, bracket, opening_group)` cell, folded
through `add_sample` starting from the fresh `_AggCell`.  A sample is an
`(opening_acc, after_acc, win_score)` triple. -/
def buildCell (samples : List (ℚ × ℚ × ℚ)) : AggCell :=
  samples.foldl (fun c s => add_sample c s.1 s.2.1 s.2.2)
    ⟨new_matrix_int, new_matrix_float, 0⟩

/-- The `(y, x)` bin pair of a sample (`y` from `after_acc`, `x` from
`opening_acc`), as used for the matrix indices in `add_sample`. -/
def binYX (s : ℚ × ℚ × ℚ) : ℕ × ℕ :=
  ((bin_index_10 s.2.1).toNat, (bin_index_10 s.1).toNat)

/-- Count-matrix entry of a cell, as read by `winrate_matrix`. -/
def entryC (cell : AggCell) (y x : ℕ) : ℕ :=
  (cell.counts.getD y []).getD x 0

/-- Win-sum-matrix entry of a cell. -/
def entryW (cell : AggCell) (y x : ℕ) : ℚ :=
  (cell.win_sums.getD y []).getD x 0

/-- Embedding of `winrate_matrix` (inner function of the builder):
`heatmap[y][x] = round(win_sums[y][x]/counts[y][x], 6)`, `0.0` when the
count is zero.  Entries are scalar JSON numbers. -/
def winrate_matrix (cell : AggCell) : List (List JVal) :=
  (List.range 10).map (fun y => (List.range 10).map (fun x =>
    if entryC cell y x = 0 then JVal.jnum 0
    else JVal.jnum (roundTo 6 (entryW cell y x / ((entryC cell y x : ℕ) : ℚ)))))

/-- Embedding of `samples_matrix` (inner function of the builder): the raw
count matrix, emitted as scalar JSON numbers. -/
def samples_matrix (cell : AggCell) : List (List JVal) :=
  cell.counts.map (fun row => row.map (fun c => JVal.jnum ((c : ℕ) : ℚ)))

lemma listModify_length {α : Type} (g : α → α) :
    ∀ (i : ℕ) (l : List α), (listModify g i l).length = l.length := by
  intro i l
  induction l generalizing i with
  | nil => cases i <;> rfl
  | cons a as ih => cases i with
    | zero => rfl
    | succ n => simp [listModify, ih n]

lemma listModify_getD_eq {α : Type} (g : α → α) (d : α) :
    ∀ (i : ℕ) (l : List α), i < l.length →
      (listModify g i l).getD i d = g (l.getD i d) := by
  intro i l
  induction l generalizing i with
  | nil => intro h; simp at h
  | cons a as ih => intro h; cases i with
    | zero => rfl
    | succ n => simpa [listModify] using ih n (by simpa using h)

lemma listModify_getD_ne {α : Type} (g : α → α) (d : α) :
    ∀ (i j : ℕ) (l : List α), i ≠ j →
      (listModify g i l).getD j d = l.getD j d := by
  intro i j l
  induction l generalizing i j with
  | nil => intro _; cases i <;> rfl
  | cons a as ih =>
      intro hij
      cases i with
      | zero =>
          cases j with
          | zero => exact absurd rfl hij
          | succ m => rfl
      | succ n =>
          cases j with
          | zero => rfl
          | succ m => simpa [listModify] using ih n m (by omega)

lemma listModify_pres {α : Type} (g : α → α) (P : α → Prop)
    (hg : ∀ a, P a → P (g a)) :
    ∀ (i : ℕ) (l : List α), (∀ a ∈ l, P a) → ∀ a ∈ listModify g i l, P a := by
  intro i l
  induction l generalizing i with
  | nil => intro _ a ha; simp [listModify] at ha
  | cons hd tl ih =>
      intro h el hel
      cases i with
      | zero =>
          simp only [listModify] at hel
          rcases List.mem_cons.mp hel with h1 | h1
          · subst h1; exact hg hd (h hd (List.mem_cons_self hd tl))
          · exact h el (List.mem_cons_of_mem hd h1)
      | succ n =>
          simp only [listModify] at hel
          rcases List.mem_cons.mp hel with h1 | h1
          · rw [h1]; exact h hd (List.mem_cons_self hd tl)
          · exact ih n (fun a ha => h a (List.mem_cons_of_mem hd ha)) el h1

lemma getD_mem {α : Type} (d : α) :
    ∀ (l : List α) (i : ℕ), i < l.length → l.getD i d ∈ l := by
  intro l
  induction l with
  | nil => intro i h; simp at h
  | cons a as ih =>
      intro i h
      cases i with
      | zero => simp [List.getD_cons_zero]
      | succ n =>
          simp only [List.getD_cons_succ]
          exact List.mem_cons_of_mem a (ih n (by simpa using h))

lemma getD_replicate {α : Type} (a d : α) :
    ∀ (n i : ℕ), i < n → (List.replicate n a).getD i d = a := by
  intro n
  induction n with
  | zero => intro i h; omega
  | succ m ih =>
      intro i h
      cases i with
      | zero => rfl
      | succ k => simpa [List.replicate] using ih k (by omega)

lemma add_sample_entryC (cell : AggCell) (o a w : ℚ) (y x : ℕ)
    (hcl : cell.counts.length = 10)
    (hrows : ∀ row ∈ cell.counts, row.length = 10)
    (hy : y < 10) (hx : x < 10) :
    entryC (add_sample cell o a w) y x =
      entryC cell y x + (if binYX (o, a, w) = (y, x) then 1 else 0) := by
  unfold entryC add_sample binYX
  by_cases hyy : (bin_index_10 a).toNat = y
  · subst hyy
    rw [listModify_getD_eq _ _ _ _ (by omega)]
    by_cases hxx : (bin_index_10 o).toNat = x
    · subst hxx
      have hrow : (cell.counts.getD (bin_index_10 a).toNat []).length = 10 :=
        hrows _ (getD_mem _ _ _ (by omega))
      rw [listModify_getD_eq _ _ _ _ (by omega), if_pos rfl]
    · rw [listModify_getD_ne _ _ _ _ _ hxx, if_neg (by simp [hxx]), Nat.add_zero]
  · rw [listModify_getD_ne _ _ _ _ _ hyy, if_neg (by simp [hyy]), Nat.add_zero]

lemma add_sample_entryW (cell : AggCell) (o a w : ℚ) (y x : ℕ)
    (hcl : cell.win_sums.length = 10)
    (hrows : ∀ row ∈ cell.win_sums, row.length = 10)
    (hy : y < 10) (hx : x < 10) :
    entryW (add_sample cell o a w) y x =
      entryW cell y x + (if binYX (o, a, w) = (y, x) then w else 0) := by
  unfold entryW add_sample binYX
  by_cases hyy : (bin_index_10 a).toNat = y
  · subst hyy
    rw [listModify_getD_eq _ _ _ _ (by omega)]
    by_cases hxx : (bin_index_10 o).toNat = x
    · subst hxx
      have hrow : (cell.win_sums.getD (bin_index_10 a).toNat []).length = 10 :=
        hrows _ (getD_mem _ _ _ (by omega))
      rw [listModify_getD_eq _ _ _ _ (by omega), if_pos rfl]
    · rw [listModify_getD_ne _ _ _ _ _ hxx, if_neg (by simp [hxx]), add_zero]
  · rw [listModify_getD_ne _ _ _ _ _ hyy, if_neg (by simp [hyy]), add_zero]

lemma fold_add_sample (samples : List (ℚ × ℚ × ℚ)) :
    ∀ cell : AggCell,
      cell.counts.length = 10 → (∀ row ∈ cell.counts, row.length = 10) →
      cell.win_sums.length = 10 → (∀ row ∈ cell.win_sums, row.length = 10) →
      ∀ y x : ℕ, y < 10 → x < 10 →
        entryC (samples.foldl (fun c s => add_sample c s.1 s.2.1 s.2.2) cell) y x =
          entryC cell y x + (samples.filter (fun s => binYX s == (y, x))).length ∧
        entryW (samples.foldl (fun c s => add_sample c s.1 s.2.1 s.2.2) cell) y x =
          entryW cell y x +
            ((samples.filter (fun s => binYX s == (y, x))).map (fun s => s.2.2)).sum := by
  induction samples with
  | nil => intro cell _ _ _ _ y x _ _; simp
  | cons s rest ih =>
      intro cell h1 h2 h3 h4 y x hy hx
      have h1' : (add_sample cell s.1 s.2.1 s.2.2).counts.length = 10 := by
        simpa [add_sample, listModify_length] using h1
      have h2' : ∀ row ∈ (add_sample cell s.1 s.2.1 s.2.2).counts, row.length = 10 := by
        intro row hrow
        exact listModify_pres _ (fun r => r.length = 10)
          (fun r hr => by simpa [listModify_length] using hr) _ _ h2 row hrow
      have h3' : (add_sample cell s.1 s.2.1 s.2.2).win_sums.length = 10 := by
        simpa [add_sample, listModify_length] using h3
      have h4' : ∀ row ∈ (add_sample cell s.1 s.2.1 s.2.2).win_sums, row.length = 10 := by
        intro row hrow
        exact listModify_pres _ (fun r => r.length = 10)
          (fun r hr => by simpa [listModify_length] using hr) _ _ h4 row hrow
      obtain ⟨ihC, ihW⟩ := ih (add_sample cell s.1 s.2.1 s.2.2) h1' h2' h3' h4' y x hy hx
      have hC := add_sample_entryC cell s.1 s.2.1 s.2.2 y x h1 h2 hy hx
      have hW := add_sample_entryW cell s.1 s.2.1 s.2.2 y x h3 h4 hy hx
      constructor
      · rw [List.foldl_cons, ihC, hC]
        by_cases hbin : binYX s = (y, x)
        · have h5 : binYX (s.1, s.2.1, s.2.2) = (y, x) := by simpa using hbin
          have hb : (binYX s == (y, x)) = true := by simpa using hbin
          rw [if_pos h5]
          simp [List.filter_cons, hb]
          all_goals omega
        · have h5 : ¬ binYX (s.1, s.2.1, s.2.2) = (y, x) := by simpa using hbin
          have hb : (binYX s == (y, x)) = false := by simpa using hbin
          rw [if_neg h5]
          simp [List.filter_cons, hb]
          all_goals omega
      · rw [List.foldl_cons, ihW, hW]
        by_cases hbin : binYX s = (y, x)
        · have h5 : binYX (s.1, s.2.1, s.2.2) = (y, x) := by simpa using hbin
          have hb : (binYX s == (y, x)) = true := by simpa using hbin
          rw [if_pos h5]
          simp [List.filter_cons, hb]
          all_goals ring
        · have h5 : ¬ binYX (s.1, s.2.1, s.2.2) = (y, x) := by simpa using hbin
          have hb : (binYX s == (y, x)) = false := by simpa using hbin
          rw [if_neg h5]
          simp [List.filter_cons, hb]
          all_goals ring

lemma buildCell_entryC (samples : List (ℚ × ℚ × ℚ)) (y x : ℕ) (hy : y < 10) (hx : x < 10) :
    entryC (buildCell samples) y x = (samples.filter (fun s => binYX s == (y, x))).length := by
  have h := (fold_add_sample samples ⟨new_matrix_int, new_matrix_float, 0⟩
    (by simp [new_matrix_int]) (by intro row hrow; simpa [new_matrix_int] using
      (List.eq_of_mem_replicate hrow) ▸ (by simp : (List.replicate 10 (0 : ℕ)).length = 10))
    (by simp [new_matrix_float]) (by intro row hrow; simpa [new_matrix_float] using
      (List.eq_of_mem_replicate hrow) ▸ (by simp : (List.replicate 10 (0 : ℚ)).length = 10))
    y x hy hx).1
  rw [buildCell, h]
  have h0 : entryC ⟨new_matrix_int, new_matrix_float, 0⟩ y x = 0 := by
    unfold entryC new_matrix_int
    rw [getD_replicate _ _ _ _ hy, getD_replicate _ _ _ _ hx]
  rw [h0, Nat.zero_add]

lemma buildCell_entryW (samples : List (ℚ × ℚ × ℚ)) (y x : ℕ) (hy : y < 10) (hx : x < 10) :
    entryW (buildCell samples) y x =
      ((samples.filter (fun s => binYX s == (y, x))).map (fun s => s.2.2)).sum := by
  have h := (fold_add_sample samples ⟨new_matrix_int, new_matrix_float, 0⟩
    (by simp [new_matrix_int]) (by intro row hrow; simpa [new_matrix_int] using
      (List.eq_of_mem_replicate hrow) ▸ (by simp : (List.replicate 10 (0 : ℕ)).length = 10))
    (by simp [new_matrix_float]) (by intro row hrow; simpa [new_matrix_float] using
      (List.eq_of_mem_replicate hrow) ▸ (by simp : (List.replicate 10 (0 : ℚ)).length = 10))
    y x hy hx).2
  rw [buildCell, h]
  have h0 : entryW ⟨new_matrix_int, new_matrix_float, 0⟩ y x = 0 := by
    unfold entryW new_matrix_float
    rw [getD_replicate _ _ _ _ hy, getD_replicate _ _ _ _ hx]
  rw [h0, zero_add]

lemma getD_range10_map {β : Type} (g : ℕ → β) (d : β) (i : ℕ) (h : i < 10) :
    ((List.range 10).map g).getD i d = g i := by
  interval_cases i <;> rfl

lemma getD_map_comm {α β : Type} (g : α → β) (da : α) (db : β) (h : g da = db) :
    ∀ (l : List α) (i : ℕ), (l.map g).getD i db = g (l.getD i da) := by
  intro l
  induction l with
  | nil => intro i; simp [h]
  | cons a as ih =>
      intro i
      cases i with
      | zero => rfl
      | succ n => simpa using ih n

/-- Claim C2 counterexample: a cell holding one white sample with
`opening_acc = after_acc = 95` and `win_score = 1` has the scalar JSON number
`1` at `heatmap[9][9]` and `cell_samples[9][9]`, not the claimed triplets
`[avg, white, black]` and `[total, white, black]` (which would be
`[1, 1, 0]` here); the aggregate carries no per-colour matrices at all. -/
theorem c2_heatmap_counterexample :
    ((winrate_matrix (buildCell [(95, 95, 1)])).getD 9 []).getD 9 (JVal.jnum 0) =
      JVal.jnum 1 ∧
    ((winrate_matrix (buildCell [(95, 95, 1)])).getD 9 []).getD 9 (JVal.jnum 0) ≠
      JVal.jarr [JVal.jnum 1, JVal.jnum 1, JVal.jnum 0] ∧
    ((samples_matrix (buildCell [(95, 95, 1)])).getD 9 []).getD 9 (JVal.jnum 0) =
      JVal.jnum 1 ∧
    ((samples_matrix (buildCell [(95, 95, 1)])).getD 9 []).getD 9 (JVal.jnum 0) ≠
      JVal.jarr [JVal.jnum 1, JVal.jnum 1, JVal.jnum 0] := by
  have hbin : binYX ((95 : ℚ), (95 : ℚ), (1 : ℚ)) = (9, 9) := by
    unfold binYX bin_index_10 clamp
    norm_num
    all_goals decide
  have hC : entryC (buildCell [(95, 95, 1)]) 9 9 = 1 := by
    rw [buildCell_entryC _ _ _ (by norm_num) (by norm_num)]
    simp [hbin]
  have hW : entryW (buildCell [(95, 95, 1)]) 9 9 = 1 := by
    rw [buildCell_entryW _ _ _ (by norm_num) (by norm_num)]
    simp [hbin]
  have hwm : ((winrate_matrix (buildCell [(95, 95, 1)])).getD 9 []).getD 9 (JVal.jnum 0) =
      JVal.jnum 1 := by
    unfold winrate_matrix
    rw [getD_range10_map _ _ _ (by norm_num), getD_range10_map _ _ _ (by norm_num),
      hC, hW, if_neg (by norm_num)]
    norm_num [roundTo, round_eq]
  have hsm : ((samples_matrix (buildCell [(95, 95, 1)])).getD 9 []).getD 9 (JVal.jnum 0) =
      JVal.jnum 1 := by
    unfold samples_matrix
    rw [getD_map_comm (fun row => row.map (fun c => JVal.jnum ((c : ℕ) : ℚ))) [] [] rfl,
      getD_map_comm (fun c => JVal.jnum ((c : ℕ) : ℚ)) 0 (JVal.jnum 0) (by simp),
      show (((buildCell [(95, 95, 1)]).counts.getD 9 []).getD 9 0) =
        entryC (buildCell [(95, 95, 1)]) 9 9 from rfl, hC, Nat.cast_one]
  refine ⟨hwm, ?_, hsm, ?_⟩
  · rw [hwm]; intro h; exact JVal.noConfusion h
  · rw [hsm]; intro h; exact JVal.noConfusion h

/-- Claim C2 amended: for every cell and every bin pair `(y, x)`,
`heatmap[y][x]` is the scalar `round(win_sum/count, 6)` over the combined
samples of that bin (`0.0` when the count is zero) and `cell_samples[y][x]`
is the scalar sample count of that bin; the aggregate carries no white-only
or black-only matrices. -/
theorem c2_heatmap_amended (samples : List (ℚ × ℚ × ℚ)) (y x : ℕ)
    (hy : y < 10) (hx : x < 10) :
    ((winrate_matrix (buildCell samples)).getD y []).getD x (JVal.jnum 0) =
      (if (samples.filter (fun s => binYX s == (y, x))).length = 0 then JVal.jnum 0
       else JVal.jnum (roundTo 6
        (((samples.filter (fun s => binYX s == (y, x))).map (fun s => s.2.2)).sum /
          (((samples.filter (fun s => binYX s == (y, x))).length : ℕ) : ℚ)))) ∧
    ((samples_matrix (buildCell samples)).getD y []).getD x (JVal.jnum 0) =
      JVal.jnum (((samples.filter (fun s => binYX s == (y, x))).length : ℕ) : ℚ) := by
  constructor
  · unfold winrate_matrix
    rw [getD_range10_map _ _ _ hy, getD_range10_map _ _ _ hx,
      buildCell_entryC samples y x hy hx, buildCell_entryW samples y x hy hx]
  · unfold samples_matrix
    rw [getD_map_comm (fun row => row.map (fun c => JVal.jnum ((c : ℕ) : ℚ))) [] [] rfl,
      getD_map_comm (fun c => JVal.jnum ((c : ℕ) : ℚ)) 0 (JVal.jnum 0) (by simp),
      show ((((buildCell samples).counts.getD y []).getD x 0)) =
        entryC (buildCell samples) y x from rfl,
      buildCell_entryC samples y x hy hx]

/-- Witness for the amended C2 at two samples and bin `(9, 9)`. -/
theorem c2_heatmap_amended_witness :
    ((winrate_matrix (buildCell [(95, 95, 1), (15, 25, 0)])).getD 9 []).getD 9 (JVal.jnum 0) =
      (if (([(95, 95, 1), (15, 25, 0)] : List (ℚ × ℚ × ℚ)).filter
            (fun s => binYX s == (9, 9))).length = 0 then JVal.jnum 0
       else JVal.jnum (roundTo 6
        (((([(95, 95, 1), (15, 25, 0)] : List (ℚ × ℚ × ℚ)).filter
            (fun s => binYX s == (9, 9))).map (fun s => s.2.2)).sum /
          ((((([(95, 95, 1), (15, 25, 0)] : List (ℚ × ℚ × ℚ)).filter
            (fun s => binYX s == (9, 9))).length : ℕ)) : ℚ)))) ∧
    ((samples_matrix (buildCell [(95, 95, 1), (15, 25, 0)])).getD 9 []).getD 9 (JVal.jnum 0) =
      JVal.jnum ((((([(95, 95, 1), (15, 25, 0)] : List (ℚ × ℚ × ℚ)).filter
        (fun s => binYX s == (9, 9))).length : ℕ)) : ℚ) :=
  c2_heatmap_amended [(95, 95, 1), (15, 25, 0)] 9 9 (by norm_num) (by norm_num)

/-! ### Opening family derivation in the popularity builder
(`PopularityBuilder.build`, `opening_root` column) -/

/-- The apostrophe character (written via its code point). -/
def apos : Char := Char.ofNat 39

/-- The literal `Queen's Gambit`. -/
def qgChars : List Char := "Queen".toList ++ apos :: "s Gambit".toList

/-- The literal `Queen's Pawn`. -/
def qpChars : List Char := "Queen".toList ++ apos :: "s Pawn".toList

/-- The literal `Queen's Pawn Game`. -/
def qpgChars : List Char := "Queen".toList ++ apos :: "s Pawn Game".toList

/-- Polars `str.split(":").list.get(0)`: the part before the first `:`
(the whole string when there is no colon). -/
def beforeColon (s : List Char) : List Char :=
  s.takeWhile (fun c => !(c == ':'))

/-- Polars `str.replace(r"\s#\d+", "")`: delete the leftmost match of
whitespace+`#`+digits (greedy digits), leaving the rest unchanged. -/
def removeFirstHashNum : List Char → List Char
  | [] => []
  | c :: rest =>
      if isSpaceCh c then
        match rest with
        | '#' :: d :: rest2 =>
            if isDigitCh d then rest2.dropWhile isDigitCh
            else c :: removeFirstHashNum rest
        | _ => c :: removeFirstHashNum rest
      else c :: removeFirstHashNum rest

/-- Polars `str.replace(pat ++ ".*", pat)` for a literal `pat`: the leftmost
occurrence of `pat` and everything after it up to the end of the line is
replaced by `pat` itself (`.` does not match a newline). -/
def replaceToEol (pat : List Char) : List Char → List Char
  | [] => []
  | c :: rest =>
      if pat.isPrefixOf (c :: rest) then
        pat ++ (List.drop pat.length (c :: rest)).dropWhile (fun d => !(d == '\n'))
      else c :: replaceToEol pat rest

/-- Polars `str.replace(pat, rep)` for a literal `pat`: replace the leftmost
occurrence only. -/
def replaceFirstLit (pat rep : List Char) : List Char → List Char
  | [] => []
  | c :: rest =>
      if pat.isPrefixOf (c :: rest) then rep ++ List.drop pat.length (c :: rest)
      else c :: replaceFirstLit pat rep rest

/-- Embedding of the `opening_root` expression of `PopularityBuilder.build`:
split at the first `:`, delete the first `\s#\d+` match, collapse anything
from `Queen's Gambit` on to `Queen's Gambit`, rewrite the first
`Queen's Pawn` to `Queen's Pawn Game`, then strip whitespace. -/
def opening_root_popularity (s : List Char) : List Char :=
  stripChars (replaceFirstLit qpChars qpgChars
    (replaceToEol qgChars (removeFirstHashNum (beforeColon s))))

lemma replaceToEol_of_no_occurrence (pat : List Char) :
    ∀ s : List Char, ¬ pat <:+: s → replaceToEol pat s = s := by
  intro s
  induction s with
  | nil => intro _; rfl
  | cons c rest ih =>
      intro h
      unfold replaceToEol
      rw [if_neg, ih (fun hin => h (List.infix_cons hin))]
      intro hpre
      exact h (List.IsPrefix.isInfix (List.isPrefixOf_iff_prefix.mp hpre))

lemma replaceFirstLit_of_no_occurrence (pat rep : List Char) :
    ∀ s : List Char, ¬ pat <:+: s → replaceFirstLit pat rep s = s := by
  intro s
  induction s with
  | nil => intro _; rfl
  | cons c rest ih =>
      intro h
      unfold replaceFirstLit
      rw [if_neg, ih (fun hin => h (List.infix_cons hin))]
      intro hpre
      exact h (List.IsPrefix.isInfix (List.isPrefixOf_iff_prefix.mp hpre))

/-- Claim C7 counterexample: a row whose `opening` column is `Queen's Pawn`
gets `opening_root = Queen's Pawn Game` (the builder's extra
`Queen's Pawn → Queen's Pawn Game` rewrite), not the claimed unchanged
family name `Queen's Pawn`. -/
theorem c7_opening_root_counterexample :
    opening_root_popularity qpChars = qpgChars ∧ qpgChars ≠ qpChars := by
  decide

/-- Claim C7 amended: for every row whose family part (before the first `:`,
after deleting the first whitespace+`#`+digits match) contains neither
`Queen's Gambit` nor `Queen's Pawn`, `opening_root` is that family part,
trimmed; the `#`-removal deletes the first such match anywhere, and the two
Queen's rewrites apply otherwise. -/
theorem c7_opening_root_amended (s : List Char)
    (hqg : ¬ qgChars <:+: removeFirstHashNum (beforeColon s))
    (hqp : ¬ qpChars <:+: removeFirstHashNum (beforeColon s)) :
    opening_root_popularity s = stripChars (removeFirstHashNum (beforeColon s)) := by
  unfold opening_root_popularity
  rw [replaceToEol_of_no_occurrence qgChars _ hqg,
    replaceFirstLit_of_no_occurrence qpChars qpgChars _ hqp]

/-- Witness for the amended C7 at `Sicilian Defense: Najdorf Variation`. -/
theorem c7_opening_root_amended_witness :
    opening_root_popularity "Sicilian Defense: Najdorf Variation".toList =
      stripChars (removeFirstHashNum (beforeColon
        "Sicilian Defense: Najdorf Variation".toList)) :=
  c7_opening_root_amended "Sicilian Defense: Najdorf Variation".toList
    (by decide) (by decide)

/-! ### Movetext tokenizer (`pgn_reader._tokenize_movetext`) -/

/-- Token kinds of the movetext tokenizer. -/
inductive TokKind where
  | TOKEN
  | COMMENT
deriving DecidableEq

lemma dropWhile_length_le {α : Type} (p : α → Bool) (l : List α) :
    (l.dropWhile p).length ≤ l.length := by
  induction l with
  | nil => simp
  | cons a as ih =>
      rw [List.dropWhile_cons]
      split
      · exact le_trans ih (by simp)
      · simp

/-- Embedding of `_tokenize_movetext`: a single pass over the flat movetext.
Whitespace is skipped; `{` opens a comment closed by the next `}` (when no
`}` follows, Python sets `j = n - 1`, so the emitted comment is the rest of
the stream with its final character dropped, and the scan ends); any other
run of non-space, non-`{` characters is a TOKEN. -/
def tokenize_movetext : List Char → List (TokKind × List Char)
  | [] => []
  | c :: rest =>
      if isSpaceCh c then tokenize_movetext rest
      else if c = '{' then
        if '}' ∈ rest then
          (TokKind.COMMENT, rest.takeWhile (fun d => !(d == '}'))) ::
            tokenize_movetext ((rest.dropWhile (fun d => !(d == '}'))).tail)
        else [(TokKind.COMMENT, rest.dropLast)]
      else
        (TokKind.TOKEN, c :: rest.takeWhile (fun d => !isSpaceCh d && !(d == '{'))) ::
          tokenize_movetext (rest.dropWhile (fun d => !isSpaceCh d && !(d == '{')))
termination_by l => l.length
decreasing_by
  · simp only [List.length_cons]; omega
  · have h1 := dropWhile_length_le (fun d => !(d == '}')) rest
    have h2 := List.length_tail (rest.dropWhile (fun d => !(d == '}')))
    simp only [List.length_cons]
    omega
  · have h1 := dropWhile_length_le (fun d => !isSpaceCh d && !(d == '{')) rest
    simp only [List.length_cons]
    omega

/-- Scanning predicate: every top-level `{` in the list is closed by a later
`}` (the tokenizer consumes the list without hitting the truncation branch
before the end). -/
def bracesOk : List Char → Bool
  | [] => true
  | c :: rest =>
      if c = '{' then
        if '}' ∈ rest then bracesOk ((rest.dropWhile (fun d => !(d == '}'))).tail)
        else false
      else bracesOk rest
termination_by l => l.length
decreasing_by
  · have h1 := dropWhile_length_le (fun d => !(d == '}')) rest
    have h2 := List.length_tail (rest.dropWhile (fun d => !(d == '}')))
    simp only [List.length_cons]
    omega
  · simp only [List.length_cons]; omega

lemma tokenize_space (c : Char) (rest : List Char) (h : isSpaceCh c = true) :
    tokenize_movetext (c :: rest) = tokenize_movetext rest := by
  rw [tokenize_movetext]
  simp [h]

lemma tokenize_brace_unterminated (rest : List Char) (h : '}' ∉ rest) :
    tokenize_movetext ('{' :: rest) = [(TokKind.COMMENT, rest.dropLast)] := by
  rw [tokenize_movetext]
  simp [h, isSpaceCh]

lemma tokenize_brace_found (rest : List Char) (h : '}' ∈ rest) :
    tokenize_movetext ('{' :: rest) =
      (TokKind.COMMENT, rest.takeWhile (fun d => !(d == '}'))) ::
        tokenize_movetext ((rest.dropWhile (fun d => !(d == '}'))).tail) := by
  rw [tokenize_movetext]
  simp [h, isSpaceCh]

lemma tokenize_token (c : Char) (rest : List Char)
    (h1 : isSpaceCh c = false) (h2 : c ≠ '{') :
    tokenize_movetext (c :: rest) =
      (TokKind.TOKEN, c :: rest.takeWhile (fun d => !isSpaceCh d && !(d == '{'))) ::
        tokenize_movetext (rest.dropWhile (fun d => !isSpaceCh d && !(d == '{'))) := by
  rw [tokenize_movetext]
  simp [h1, h2]

lemma takeWhile_append_stop {α : Type} (p : α → Bool) :
    ∀ (l t : List α), (∃ x ∈ l, p x = false) →
      (l ++ t).takeWhile p = l.takeWhile p ∧ (l ++ t).dropWhile p = l.dropWhile p ++ t := by
  intro l
  induction l with
  | nil => intro t h; rcases h with ⟨x, hx, _⟩; simp at hx
  | cons a l' ih =>
      intro t h
      by_cases hpa : p a = true
      · have h' : ∃ x ∈ l', p x = false := by
          rcases h with ⟨x, hx, hpx⟩
          rcases List.mem_cons.mp hx with h1 | h1
          · rw [h1, hpa] at hpx; exact absurd hpx (by simp)
          · exact ⟨x, h1, hpx⟩
        obtain ⟨ht, hd⟩ := ih t h'
        constructor
        · simp [List.cons_append, List.takeWhile_cons, hpa, ht]
        · simp [List.cons_append, List.dropWhile_cons, hpa, hd]
      · have hpa' : p a = false := by simpa using hpa
        constructor
        · simp [List.cons_append, List.takeWhile_cons, hpa']
        · simp [List.cons_append, List.dropWhile_cons, hpa']

lemma bracesOk_cons_ne (c : Char) (rest : List Char) (h : c ≠ '{') :
    bracesOk (c :: rest) = bracesOk rest := by
  rw [bracesOk]
  simp [h]

lemma bracesOk_brace (rest : List Char) :
    bracesOk ('{' :: rest) =
      if '}' ∈ rest then bracesOk ((rest.dropWhile (fun d => !(d == '}'))).tail)
      else false := by
  rw [bracesOk]
  simp

lemma bracesOk_dropWhile (p : Char → Bool) (hp : ∀ c, p c = true → c ≠ '{') :
    ∀ l : List Char, bracesOk l = true → bracesOk (l.dropWhile p) = true := by
  intro l
  induction l with
  | nil => intro h; simpa using h
  | cons a l' ih =>
      intro h
      by_cases hpa : p a = true
      · rw [List.dropWhile_cons, if_pos hpa]
        exact ih (by rwa [bracesOk_cons_ne a l' (hp a hpa)] at h)
      · rw [List.dropWhile_cons, if_neg hpa]
        exact h

lemma c8_aux :
    ∀ (n : ℕ) (p rest : List Char), p.length ≤ n → bracesOk p = true → '}' ∉ rest →
      ∃ pre, tokenize_movetext (p ++ '{' :: rest) =
        pre ++ [(TokKind.COMMENT, rest.dropLast)] := by
  intro n
  induction n with
  | zero =>
      intro p rest hlen hok hns
      have hp : p = [] := List.length_eq_zero.mp (Nat.le_zero.mp hlen)
      subst hp
      exact ⟨[], by simpa using tokenize_brace_unterminated rest hns⟩
  | succ m ih =>
      intro p rest hlen hok hns
      match p with
      | [] => exact ⟨[], by simpa using tokenize_brace_unterminated rest hns⟩
      | c :: p' =>
        by_cases hsp : isSpaceCh c = true
        · have hc : c ≠ '{' := by
            intro he
            rw [he] at hsp
            exact absurd hsp (by decide)
          have hok' : bracesOk p' = true := by rwa [bracesOk_cons_ne c p' hc] at hok
          have hlen' : p'.length ≤ m := by
            simp only [List.length_cons] at hlen
            omega
          obtain ⟨pre, hpre⟩ := ih p' rest hlen' hok' hns
          exact ⟨pre, by rw [List.cons_append, tokenize_space c _ hsp, hpre]⟩
        · by_cases hbr : c = '{'
          · subst hbr
            rw [bracesOk_brace] at hok
            by_cases hmem : '}' ∈ p'
            · rw [if_pos hmem] at hok
              have hwit : ∃ x ∈ p', (fun d => !(d == '}')) x = false := ⟨'}', hmem, by simp⟩
              obtain ⟨htw, hdw⟩ :=
                takeWhile_append_stop (fun d => !(d == '}')) p' ('{' :: rest) hwit
              have hmem2 : '}' ∈ p' ++ '{' :: rest := List.mem_append.mpr (Or.inl hmem)
              rw [List.cons_append, tokenize_brace_found _ hmem2, htw, hdw]
              have hdnn : p'.dropWhile (fun d => !(d == '}')) ≠ [] := by
                intro he
                have hall := List.dropWhile_eq_nil_iff.mp he
                have := hall '}' hmem
                simp at this
              have htail : ((p'.dropWhile (fun d => !(d == '}'))) ++ '{' :: rest).tail =
                  (p'.dropWhile (fun d => !(d == '}'))).tail ++ '{' :: rest := by
                cases hcase : p'.dropWhile (fun d => !(d == '}')) with
                | nil => exact absurd hcase hdnn
                | cons a as => simp [hcase]
              rw [htail]
              have hlen' : ((p'.dropWhile (fun d => !(d == '}'))).tail).length ≤ m := by
                have h1 := dropWhile_length_le (fun d => !(d == '}')) p'
                have h2 := List.length_tail (p'.dropWhile (fun d => !(d == '}')))
                simp only [List.length_cons] at hlen
                omega
              obtain ⟨pre, hpre⟩ := ih _ rest hlen' hok hns
              exact ⟨(TokKind.COMMENT, p'.takeWhile (fun d => !(d == '}'))) :: pre,
                by rw [hpre]; rfl⟩
            · rw [if_neg hmem] at hok
              exact absurd hok (by simp)
          · have hsp' : isSpaceCh c = false := by simpa using hsp
            have hok' : bracesOk p' = true := by rwa [bracesOk_cons_ne c p' hbr] at hok
            rw [List.cons_append, tokenize_token c _ hsp' hbr]
            by_cases hall : ∃ x ∈ p', (fun d => !isSpaceCh d && !(d == '{')) x = false
            · obtain ⟨htw, hdw⟩ :=
                takeWhile_append_stop (fun d => !isSpaceCh d && !(d == '{')) p'
                  ('{' :: rest) hall
              rw [htw, hdw]
              have hok'' : bracesOk (p'.dropWhile (fun d => !isSpaceCh d && !(d == '{'))) =
                  true := by
                refine bracesOk_dropWhile _ ?_ p' hok'
                intro d hd he
                rw [he] at hd
                simp at hd
              have hlen' : (p'.dropWhile (fun d => !isSpaceCh d && !(d == '{'))).length ≤ m := by
                have h1 := dropWhile_length_le (fun d => !isSpaceCh d && !(d == '{')) p'
                simp only [List.length_cons] at hlen
                omega
              obtain ⟨pre, hpre⟩ := ih _ rest hlen' hok'' hns
              exact ⟨(TokKind.TOKEN,
                c :: p'.takeWhile (fun d => !isSpaceCh d && !(d == '{'))) :: pre,
                by rw [hpre]; rfl⟩
            · have hall' : ∀ x ∈ p', (fun d => !isSpaceCh d && !(d == '{')) x = true := by
                intro x hx
                by_contra hxx
                exact hall ⟨x, hx, by simpa using hxx⟩
              rw [takeWhile_append_all _ p' '{' rest hall' (by simp),
                dropWhile_append_all _ p' '{' rest hall' (by simp),
                tokenize_brace_unterminated rest hns]
              exact ⟨[(TokKind.TOKEN, c :: p')], rfl⟩

/-- Claim C8 counterexample: on the movetext `{ab` the tokenizer emits the
single comment `a` — the remainder of the stream with its final character
dropped (Python sets `j = n − 1`) — not a comment `ab` running to the end of
the stream. -/
theorem c8_truncation_counterexample :
    tokenize_movetext ('{' :: 'a' :: 'b' :: []) = [(TokKind.COMMENT, ['a'])] ∧
    tokenize_movetext ('{' :: 'a' :: 'b' :: []) ≠ [(TokKind.COMMENT, ['a', 'b'])] := by
  have h : tokenize_movetext ('{' :: 'a' :: 'b' :: []) = [(TokKind.COMMENT, ['a'])] := by
    rw [tokenize_brace_unterminated ['a', 'b'] (by decide)]
    rfl
  exact ⟨h, by rw [h]; decide⟩

/-- Claim C8 amended: for every movetext `p ++ '{' :: rest` whose prefix `p`
closes all its comments and whose suffix `rest` holds no `}`, the single-pass
tokenizer terminates and its output is some prefix of tokens followed by
exactly one final COMMENT token for the unmatched brace, holding `rest` with
its last character dropped; no token follows it. -/
theorem c8_unterminated_comment (p rest : List Char)
    (hok : bracesOk p = true) (hns : '}' ∉ rest) :
    ∃ pre, tokenize_movetext (p ++ '{' :: rest) =
      pre ++ [(TokKind.COMMENT, rest.dropLast)] :=
  c8_aux p.length p rest le_rfl hok hns

/-- Witness for C8 at `p = "e4 "`, `rest = "ab"`. -/
theorem c8_unterminated_comment_witness :
    ∃ pre, tokenize_movetext ("e4 ".toList ++ '{' :: "ab".toList) =
      pre ++ [(TokKind.COMMENT, ("ab".toList).dropLast)] :=
  c8_unterminated_comment "e4 ".toList "ab".toList (by simp [bracesOk]) (by decide)

/-! ### Move extraction (`pgn_reader._extract_moves_with_eval`) -/

/-- A parsed move: the raw SAN token and the optional engine evaluation in
pawn units, as the Python dict `{"move": tok, "eval": ev}`. -/
structure MoveE where
  move : List Char
  eval : Option ℚ
deriving DecidableEq

/-- Result tokens skipped by the extractor. -/
def isResultTok (t : List Char) : Bool :=
  t == "1-0".toList || t == "0-1".toList || t == "1/2-1/2".toList || t == "*".toList

/-- Move-number tokens `re.fullmatch(r"\d+\.+", tok)`. -/
def isMoveNumTok (t : List Char) : Bool :=
  !(t.takeWhile isDigitCh).isEmpty && !(t.dropWhile isDigitCh).isEmpty &&
    (t.dropWhile isDigitCh).all (fun c => c == '.')

/-- NAG tokens `tok.startswith("$")`. -/
def isNagTok (t : List Char) : Bool :=
  match t with
  | '$' :: _ => true
  | _ => false

/-- Matcher for `\[%eval\s+([^\]]+)\]` anchored at the head of the list
(deterministic scan: greedy `\s+`, then a nonempty capture up to the closing
`]`; the backtracking corner case where `\s+` gives a space back to the
capture only arises for all-whitespace captures, which parse to no numeric
eval either way). -/
def matchEvalAt (l : List Char) : Option (List Char) :=
  if "[%eval".toList.isPrefixOf l then
    if (l.drop 6).takeWhile isSpaceCh = [] then none
    else
      match ((l.drop 6).dropWhile isSpaceCh).takeWhile (fun c => !(c == ']')) with
      | [] => none
      | cap =>
          match ((l.drop 6).dropWhile isSpaceCh).dropWhile (fun c => !(c == ']')) with
          | ']' :: _ => some cap
          | _ => none
  else none

/-- `EVAL_RE.search`: leftmost match of the eval pattern in a comment. -/
def evalSearch : List Char → Option (List Char)
  | [] => none
  | c :: rest =>
      match matchEvalAt (c :: rest) with
      | some cap => some cap
      | none => evalSearch rest

/-- Python `float` on the decimal forms occurring in `[%eval]` values:
optional sign, then digits with an optional fractional part.  Exotic float
syntax (exponents, `inf`, `nan`) does not occur in Lichess evals and parses
to no value here. -/
def parseFloatQ (t : List Char) : Option ℚ :=
  let signed : ℚ × List Char :=
    match t with
    | '-' :: r => (-1, r)
    | '+' :: r => (1, r)
    | _ => (1, t)
  let ip := signed.2.takeWhile isDigitCh
  match signed.2.dropWhile isDigitCh with
  | [] => if ip = [] then none else some (signed.1 * digitsVal ip)
  | '.' :: frac =>
      if frac.dropWhile isDigitCh = [] then
        if ip = [] ∧ frac = [] then none
        else some (signed.1 * ((digitsVal ip : ℚ) +
          (digitsVal (frac.takeWhile isDigitCh) : ℚ) / 10 ^ (frac.takeWhile isDigitCh).length))
      else none
  | _ => none

/-- Embedding of `_parse_eval_value`: strip, treat mate scores (`#…`) as no
numeric value, else parse as a float. -/
def parse_eval_value (raw : List Char) : Option ℚ :=
  match stripChars raw with
  | '#' :: _ => none
  | t => parseFloatQ t

/-- Embedding of the loop of `_extract_moves_with_eval`: kept TOKENs are
appended verbatim as Moves with `eval = None`; a COMMENT holding an eval
pattern overwrites the eval of the most recently appended Move. -/
def extractLoop : List (TokKind × List Char) → List MoveE → Option ℕ → List MoveE
  | [], moves, _ => moves
  | (TokKind.TOKEN, t) :: rest, moves, lastIdx =>
      if isResultTok t || isMoveNumTok t || isNagTok t then extractLoop rest moves lastIdx
      else extractLoop rest (moves ++ [⟨t, none⟩]) (some moves.length)
  | (TokKind.COMMENT, v) :: rest, moves, lastIdx =>
      match lastIdx with
      | none => extractLoop rest moves none
      | some idx =>
          match evalSearch v with
          | none => extractLoop rest moves (some idx)
          | some cap =>
              extractLoop rest
                (listModify (fun m => { m with eval := parse_eval_value cap }) idx moves)
                (some idx)

/-- Embedding of `_extract_moves_with_eval`. -/
def extract_moves_with_eval (s : List Char) : List MoveE :=
  extractLoop (tokenize_movetext s) [] none

/-- The SAN tokens the extractor keeps: TOKEN tokens that are not results,
move numbers or NAGs. -/
def keptSanTokens (s : List Char) : List (List Char) :=
  (tokenize_movetext s).filterMap (fun tk =>
    match tk with
    | (TokKind.TOKEN, t) =>
        if isResultTok t || isMoveNumTok t || isNagTok t then none else some t
    | (TokKind.COMMENT, _) => none)

/-- Claim C3 counterexample: the token `e4??` is kept whole as the move —
no annotation suffix is split off and no `tag` field exists — where the
claim predicts `san = "e4"` with `tag = "??"`. -/
theorem c3_annotation_counterexample :
    extract_moves_with_eval "e4??".toList = [⟨"e4??".toList, none⟩] ∧
    ("e4??".toList : List Char) ≠ "e4".toList := by
  have htok : tokenize_movetext "e4??".toList = [(TokKind.TOKEN, "e4??".toList)] := by
    show tokenize_movetext ('e' :: ['4', '?', '?']) = [(TokKind.TOKEN, "e4??".toList)]
    rw [tokenize_token 'e' ['4', '?', '?'] (by decide) (by decide)]
    show (TokKind.TOKEN, 'e' :: ['4', '?', '?']) :: tokenize_movetext [] = _
    rw [show tokenize_movetext [] = [] from by rw [tokenize_movetext]]
    decide
  constructor
  · rw [extract_moves_with_eval, htok]
    decide
  · decide

lemma listModify_map_move (e : Option ℚ) :
    ∀ (idx : ℕ) (moves : List MoveE),
      (listModify (fun m => { m with eval := e }) idx moves).map (fun m => m.move) =
        moves.map (fun m => m.move) := by
  intro idx moves
  induction moves generalizing idx with
  | nil => cases idx <;> rfl
  | cons m ms ih =>
      cases idx with
      | zero => simp [listModify]
      | succ k => simp [listModify, ih k]

lemma extractLoop_moves :
    ∀ (toks : List (TokKind × List Char)) (moves : List MoveE) (lastIdx : Option ℕ),
      (extractLoop toks moves lastIdx).map (fun m => m.move) =
        moves.map (fun m => m.move) ++
          toks.filterMap (fun tk =>
            match tk with
            | (TokKind.TOKEN, t) =>
                if isResultTok t || isMoveNumTok t || isNagTok t then none else some t
            | (TokKind.COMMENT, _) => none) := by
  intro toks
  induction toks with
  | nil => intro moves lastIdx; simp [extractLoop]
  | cons tk rest ih =>
      intro moves lastIdx
      match tk with
      | (TokKind.TOKEN, t) =>
          by_cases hskip : (isResultTok t || isMoveNumTok t || isNagTok t) = true
          · rw [extractLoop, if_pos hskip, ih]
            simp only [List.filterMap_cons]
            rw [if_pos hskip]
          · rw [extractLoop, if_neg hskip, ih]
            simp only [List.filterMap_cons]
            rw [if_neg hskip]
            simp [List.map_append]
      | (TokKind.COMMENT, v) =>
          match lastIdx with
          | none =>
              rw [extractLoop, ih]
              simp [List.filterMap_cons]
          | some idx =>
              rw [extractLoop]
              match hev : evalSearch v with
              | none =>
                  rw [ih]
                  simp [List.filterMap_cons]
              | some cap =>
                  rw [ih, listModify_map_move]
                  simp [List.filterMap_cons]

/-- Claim C3 amended: every Move retains the exact SAN token, unchanged — no
trailing annotation suffix is split off and no `tag` field exists; the moves
of the extractor's output are exactly the kept SAN tokens, verbatim. -/
theorem c3_moves_verbatim (s : List Char) :
    (extract_moves_with_eval s).map (fun m => m.move) = keptSanTokens s := by
  rw [extract_moves_with_eval, keptSanTokens, extractLoop_moves]
  rfl

/-! ### Accuracy engine (`game_helpers.compute_accuracy_metrics_from_moves`)

The running-accuracy transform `round(100 · exp(−mean/100), 2)` maps a mean
centipawn loss (a rational) to a real; the engine is defined generically over
that transform and the claim theorem instantiates the exponential formula. -/

/-- Mean of a list of rationals, as Python `sum(l)/len(l)`. -/
def listMean (l : List ℚ) : ℚ := l.sum / l.length

/-- Running-accuracy trajectory of a cp-loss list: entry `j` is the
transform applied to the mean of the first `j + 1` losses.  This is the
claim's characterisation (§4.4) of the lists the engine appends to. -/
def trajOf {α : Type} (g : ℚ → α) (L : List ℚ) : List α :=
  (List.range L.length).map (fun j => g (listMean (L.take (j + 1))))

/-- Embedding of the loop of `compute_accuracy_metrics_from_moves`: walk the
moves with the 0-based ply index (even = White, odd = Black), track each
side's last evaluation, and on every evaluated ply whose side already has an
earlier evaluation append `|ev − prev| · 100` to that side's cp-loss list
and the global list, and the transform of the running means to the matching
trajectories. -/
def accLoop {α : Type} (g : ℚ → α) :
    List MoveE → ℕ → Option ℚ → Option ℚ → List ℚ → List ℚ → List ℚ →
    List α → List α → List α →
    List ℚ × List ℚ × List ℚ × List α × List α × List α
  | [], _, _, _, cpAll, cpW, cpB, accAll, accW, accB =>
      (cpAll, cpW, cpB, accAll, accW, accB)
  | m :: rest, i, lastW, lastB, cpAll, cpW, cpB, accAll, accW, accB =>
      match m.eval with
      | none => accLoop g rest (i + 1) lastW lastB cpAll cpW cpB accAll accW accB
      | some ev =>
          if i % 2 = 0 then
            match lastW with
            | none => accLoop g rest (i + 1) (some ev) lastB cpAll cpW cpB accAll accW accB
            | some prev =>
                accLoop g rest (i + 1) (some ev) lastB
                  (cpAll ++ [|ev - prev| * 100]) (cpW ++ [|ev - prev| * 100]) cpB
                  (accAll ++ [g (listMean (cpAll ++ [|ev - prev| * 100]))])
                  (accW ++ [g (listMean (cpW ++ [|ev - prev| * 100]))]) accB
          else
            match lastB with
            | none => accLoop g rest (i + 1) lastW (some ev) cpAll cpW cpB accAll accW accB
            | some prev =>
                accLoop g rest (i + 1) lastW (some ev)
                  (cpAll ++ [|ev - prev| * 100]) cpW (cpB ++ [|ev - prev| * 100])
                  (accAll ++ [g (listMean (cpAll ++ [|ev - prev| * 100]))])
                  accW (accB ++ [g (listMean (cpB ++ [|ev - prev| * 100]))])

/-- Embedding of `compute_accuracy_metrics_from_moves`: run the loop from
the empty state and assemble `(has_eval, average_accuracy,
acc_per_move_all, avg_acc_w, avg_acc_b, acc_per_move_w, acc_per_move_b)`;
each final scalar is the transform of the full list's mean and is absent
exactly when that cp-loss list is empty. -/
def compute_accuracy_metrics_from_moves {α : Type} (g : ℚ → α) (moves : List MoveE) :
    Bool × Option α × List α × Option α × Option α × List α × List α :=
  (moves.any (fun m => m.eval.isSome),
   if (accLoop g moves 0 none none [] [] [] [] [] []).1 = [] then none
   else some (g (listMean (accLoop g moves 0 none none [] [] [] [] [] []).1)),
   (accLoop g moves 0 none none [] [] [] [] [] []).2.2.2.1,
   if (accLoop g moves 0 none none [] [] [] [] [] []).2.1 = [] then none
   else some (g (listMean (accLoop g moves 0 none none [] [] [] [] [] []).2.1)),
   if (accLoop g moves 0 none none [] [] [] [] [] []).2.2.1 = [] then none
   else some (g (listMean (accLoop g moves 0 none none [] [] [] [] [] []).2.2.1)),
   (accLoop g moves 0 none none [] [] [] [] [] []).2.2.2.2.1,
   (accLoop g moves 0 none none [] [] [] [] [] []).2.2.2.2.2)

/-- Specification-side cp-loss lists `(global, white, black)`, written after
the claim's description: at 0-based ply `i` (even = White, odd = Black), a
Move carrying an evaluation whose side already has an earlier evaluation
contributes `|eval_now − eval_prev| · 100` to that side's list and the
global list. -/
def cpLossesSpec : List MoveE → ℕ → Option ℚ → Option ℚ → List ℚ × List ℚ × List ℚ
  | [], _, _, _ => ([], [], [])
  | m :: rest, i, lastW, lastB =>
      match m.eval with
      | none => cpLossesSpec rest (i + 1) lastW lastB
      | some ev =>
          if i % 2 = 0 then
            match lastW with
            | none => cpLossesSpec rest (i + 1) (some ev) lastB
            | some prev =>
                (|ev - prev| * 100 :: (cpLossesSpec rest (i + 1) (some ev) lastB).1,
                 |ev - prev| * 100 :: (cpLossesSpec rest (i + 1) (some ev) lastB).2.1,
                 (cpLossesSpec rest (i + 1) (some ev) lastB).2.2)
          else
            match lastB with
            | none => cpLossesSpec rest (i + 1) lastW (some ev)
            | some prev =>
                (|ev - prev| * 100 :: (cpLossesSpec rest (i + 1) lastW (some ev)).1,
                 (cpLossesSpec rest (i + 1) lastW (some ev)).2.1,
                 |ev - prev| * 100 :: (cpLossesSpec rest (i + 1) lastW (some ev)).2.2)

lemma trajOf_snoc {α : Type} (g : ℚ → α) (L : List ℚ) (x : ℚ) :
    trajOf g (L ++ [x]) = trajOf g L ++ [g (listMean (L ++ [x]))] := by
  unfold trajOf
  rw [List.length_append, List.length_singleton, List.range_succ, List.map_append]
  congr 1
  · refine List.map_congr_left ?_
    intro j hj
    rw [List.mem_range] at hj
    rw [List.take_append_of_le_length (by omega)]
  · rw [List.map_singleton]
    have htake : (L ++ [x]).take (L.length + 1) = L ++ [x] := by
      rw [show L.length + 1 = (L ++ [x]).length by simp, List.take_length]
    rw [htake]

lemma accLoop_step_none {α : Type} (g : ℚ → α) (m : MoveE) (rest : List MoveE)
    (i : ℕ) (lW lB : Option ℚ) (cpAll cpW cpB : List ℚ) (accAll accW accB : List α)
    (hev : m.eval = none) :
    accLoop g (m :: rest) i lW lB cpAll cpW cpB accAll accW accB =
      accLoop g rest (i + 1) lW lB cpAll cpW cpB accAll accW accB := by
  rw [accLoop, hev]

lemma accLoop_step_even_fresh {α : Type} (g : ℚ → α) (m : MoveE) (rest : List MoveE)
    (i : ℕ) (ev : ℚ) (lB : Option ℚ) (cpAll cpW cpB : List ℚ) (accAll accW accB : List α)
    (hev : m.eval = some ev) (hpar : i % 2 = 0) :
    accLoop g (m :: rest) i none lB cpAll cpW cpB accAll accW accB =
      accLoop g rest (i + 1) (some ev) lB cpAll cpW cpB accAll accW accB := by
  rw [accLoop, hev]
  simp [hpar]

lemma accLoop_step_even_prev {α : Type} (g : ℚ → α) (m : MoveE) (rest : List MoveE)
    (i : ℕ) (ev prev : ℚ) (lB : Option ℚ) (cpAll cpW cpB : List ℚ)
    (accAll accW accB : List α) (hev : m.eval = some ev) (hpar : i % 2 = 0) :
    accLoop g (m :: rest) i (some prev) lB cpAll cpW cpB accAll accW accB =
      accLoop g rest (i + 1) (some ev) lB
        (cpAll ++ [|ev - prev| * 100]) (cpW ++ [|ev - prev| * 100]) cpB
        (accAll ++ [g (listMean (cpAll ++ [|ev - prev| * 100]))])
        (accW ++ [g (listMean (cpW ++ [|ev - prev| * 100]))]) accB := by
  rw [accLoop, hev]
  simp [hpar]

lemma accLoop_step_odd_fresh {α : Type} (g : ℚ → α) (m : MoveE) (rest : List MoveE)
    (i : ℕ) (ev : ℚ) (lW : Option ℚ) (cpAll cpW cpB : List ℚ) (accAll accW accB : List α)
    (hev : m.eval = some ev) (hpar : ¬ i % 2 = 0) :
    accLoop g (m :: rest) i lW none cpAll cpW cpB accAll accW accB =
      accLoop g rest (i + 1) lW (some ev) cpAll cpW cpB accAll accW accB := by
  rw [accLoop, hev]
  simp [hpar]

lemma accLoop_step_odd_prev {α : Type} (g : ℚ → α) (m : MoveE) (rest : List MoveE)
    (i : ℕ) (ev prev : ℚ) (lW : Option ℚ) (cpAll cpW cpB : List ℚ)
    (accAll accW accB : List α) (hev : m.eval = some ev) (hpar : ¬ i % 2 = 0) :
    accLoop g (m :: rest) i lW (some prev) cpAll cpW cpB accAll accW accB =
      accLoop g rest (i + 1) lW (some ev)
        (cpAll ++ [|ev - prev| * 100]) cpW (cpB ++ [|ev - prev| * 100])
        (accAll ++ [g (listMean (cpAll ++ [|ev - prev| * 100]))])
        accW (accB ++ [g (listMean (cpB ++ [|ev - prev| * 100]))]) := by
  rw [accLoop, hev]
  simp [hpar]

lemma cpLossesSpec_step_none (m : MoveE) (rest : List MoveE) (i : ℕ)
    (lW lB : Option ℚ) (hev : m.eval = none) :
    cpLossesSpec (m :: rest) i lW lB = cpLossesSpec rest (i + 1) lW lB := by
  rw [cpLossesSpec, hev]

lemma cpLossesSpec_step_even_fresh (m : MoveE) (rest : List MoveE) (i : ℕ)
    (ev : ℚ) (lB : Option ℚ) (hev : m.eval = some ev) (hpar : i % 2 = 0) :
    cpLossesSpec (m :: rest) i none lB = cpLossesSpec rest (i + 1) (some ev) lB := by
  rw [cpLossesSpec, hev]
  simp [hpar]

lemma cpLossesSpec_step_even_prev (m : MoveE) (rest : List MoveE) (i : ℕ)
    (ev prev : ℚ) (lB : Option ℚ) (hev : m.eval = some ev) (hpar : i % 2 = 0) :
    cpLossesSpec (m :: rest) i (some prev) lB =
      (|ev - prev| * 100 :: (cpLossesSpec rest (i + 1) (some ev) lB).1,
       |ev - prev| * 100 :: (cpLossesSpec rest (i + 1) (some ev) lB).2.1,
       (cpLossesSpec rest (i + 1) (some ev) lB).2.2) := by
  rw [cpLossesSpec, hev]
  simp [hpar]

lemma cpLossesSpec_step_odd_fresh (m : MoveE) (rest : List MoveE) (i : ℕ)
    (ev : ℚ) (lW : Option ℚ) (hev : m.eval = some ev) (hpar : ¬ i % 2 = 0) :
    cpLossesSpec (m :: rest) i lW none = cpLossesSpec rest (i + 1) lW (some ev) := by
  rw [cpLossesSpec, hev]
  simp [hpar]

lemma cpLossesSpec_step_odd_prev (m : MoveE) (rest : List MoveE) (i : ℕ)
    (ev prev : ℚ) (lW : Option ℚ) (hev : m.eval = some ev) (hpar : ¬ i % 2 = 0) :
    cpLossesSpec (m :: rest) i lW (some prev) =
      (|ev - prev| * 100 :: (cpLossesSpec rest (i + 1) lW (some ev)).1,
       (cpLossesSpec rest (i + 1) lW (some ev)).2.1,
       |ev - prev| * 100 :: (cpLossesSpec rest (i + 1) lW (some ev)).2.2) := by
  rw [cpLossesSpec, hev]
  simp [hpar]

lemma accLoop_char {α : Type} (g : ℚ → α) :
    ∀ (rest : List MoveE) (i : ℕ) (lW lB : Option ℚ)
      (cpAll cpW cpB : List ℚ) (accAll accW accB : List α),
      accAll = trajOf g cpAll → accW = trajOf g cpW → accB = trajOf g cpB →
      accLoop g rest i lW lB cpAll cpW cpB accAll accW accB =
        (cpAll ++ (cpLossesSpec rest i lW lB).1,
         cpW ++ (cpLossesSpec rest i lW lB).2.1,
         cpB ++ (cpLossesSpec rest i lW lB).2.2,
         trajOf g (cpAll ++ (cpLossesSpec rest i lW lB).1),
         trajOf g (cpW ++ (cpLossesSpec rest i lW lB).2.1),
         trajOf g (cpB ++ (cpLossesSpec rest i lW lB).2.2)) := by
  intro rest
  induction rest with
  | nil =>
      intro i lW lB cpAll cpW cpB accAll accW accB hA hW hB
      rw [accLoop, cpLossesSpec]
      simp [hA, hW, hB]
  | cons m ms ih =>
      intro i lW lB cpAll cpW cpB accAll accW accB hA hW hB
      cases hev : m.eval with
      | none =>
          rw [accLoop_step_none g m ms i lW lB cpAll cpW cpB accAll accW accB hev,
            cpLossesSpec_step_none m ms i lW lB hev]
          exact ih (i + 1) lW lB cpAll cpW cpB accAll accW accB hA hW hB
      | some ev =>
          by_cases hpar : i % 2 = 0
          · cases lW with
            | none =>
                rw [accLoop_step_even_fresh g m ms i ev lB cpAll cpW cpB accAll accW accB
                    hev hpar,
                  cpLossesSpec_step_even_fresh m ms i ev lB hev hpar]
                exact ih (i + 1) (some ev) lB cpAll cpW cpB accAll accW accB hA hW hB
            | some prev =>
                rw [accLoop_step_even_prev g m ms i ev prev lB cpAll cpW cpB accAll accW accB
                    hev hpar,
                  cpLossesSpec_step_even_prev m ms i ev prev lB hev hpar,
                  ih (i + 1) (some ev) lB
                    (cpAll ++ [|ev - prev| * 100]) (cpW ++ [|ev - prev| * 100]) cpB
                    (accAll ++ [g (listMean (cpAll ++ [|ev - prev| * 100]))])
                    (accW ++ [g (listMean (cpW ++ [|ev - prev| * 100]))]) accB
                    (by rw [hA, trajOf_snoc]) (by rw [hW, trajOf_snoc]) hB]
                simp [List.append_assoc]
          · cases lB with
            | none =>
                rw [accLoop_step_odd_fresh g m ms i ev lW cpAll cpW cpB accAll accW accB
                    hev hpar,
                  cpLossesSpec_step_odd_fresh m ms i ev lW hev hpar]
                exact ih (i + 1) lW (some ev) cpAll cpW cpB accAll accW accB hA hW hB
            | some prev =>
                rw [accLoop_step_odd_prev g m ms i ev prev lW cpAll cpW cpB accAll accW accB
                    hev hpar,
                  cpLossesSpec_step_odd_prev m ms i ev prev lW hev hpar,
                  ih (i + 1) lW (some ev)
                    (cpAll ++ [|ev - prev| * 100]) cpW (cpB ++ [|ev - prev| * 100])
                    (accAll ++ [g (listMean (cpAll ++ [|ev - prev| * 100]))])
                    accW (accB ++ [g (listMean (cpB ++ [|ev - prev| * 100]))])
                    (by rw [hA, trajOf_snoc]) hW (by rw [hB, trajOf_snoc])]
                simp [List.append_assoc]

/-- Claim C4: with the transform `round(100 · exp(−mean/100), 2)`, the
engine's output satisfies: `has_eval` holds iff some Move carries a numeric
eval; each trajectory entry `j` is the transform of the mean of the first
`j + 1` cp-losses `|eval_now − eval_prev| · 100` of the matching list
(global / White on even plies / Black on odd plies); and each final scalar
is the transform of the full list's mean, absent exactly when that list is
empty. -/
theorem c4_accuracy_engine (moves : List MoveE) :
    let accR : ℚ → ℝ := fun x =>
      ((round ((100 : ℝ) * Real.exp (-(x : ℝ) / 100) * 100) : ℤ) : ℝ) / 100
    let A := (cpLossesSpec moves 0 none none).1
    let W := (cpLossesSpec moves 0 none none).2.1
    let B := (cpLossesSpec moves 0 none none).2.2
    compute_accuracy_metrics_from_moves accR moves =
      (moves.any (fun m => m.eval.isSome),
       if A = [] then none else some (accR (listMean A)),
       trajOf accR A,
       if W = [] then none else some (accR (listMean W)),
       if B = [] then none else some (accR (listMean B)),
       trajOf accR W,
       trajOf accR B) := by
  intro accR A W B
  unfold compute_accuracy_metrics_from_moves
  rw [accLoop_char accR moves 0 none none [] [] [] [] [] [] rfl rfl rfl]
  simp only [List.nil_append]

end ChessViz
